import Mathlib

/-!
Verification of the `graph_refs` introspection engine.

This file gives a shallow embedding of the two source modules that hold the
real logic of the library:

* `src/graph_refs/_types.py` — the five marker shapes `Ref`, `Attr`,
  `RefList`, `RefDict`, `ContextRef`, each producing a `_GenericAlias`
  carrying `__origin__` and `__args__`, and the arity-checking subscript
  operations of `Attr` and `RefDict`;
* `src/graph_refs/_introspection.py` — `RefInfo`, `get_refs`,
  `_analyze_type`, and `get_dependencies` (direct and transitive, with a
  visited-set work-list traversal).

Python type hints are modelled by the inductive `Hint`; a runtime
`_GenericAlias(origin, args)` (and likewise `typing.Union` / `typing.Literal`
expressions, which expose the same `__origin__` / `__args__` interface
through `_get_origin` / `_get_args`) is `Hint.generic o args`.  Classes are
identified by a natural number, `type(None)` is the distinguished
`Hint.NoneType`, and plain strings (used as `Attr` / `ContextRef`
parameters) are `Hint.StrVal`.  Python sets of types are modelled as
`Finset Hint`; where the source iterates over a set (building
`list(deps)`, or extending the work list with `nested_deps - visited`),
the model iterates over a duplicate-free list and relates it to the
`Finset` via `List.toFinset`.
-/

namespace GraphRefs

/-- Identity of a marker shape or typing construct, as recovered by
`_get_origin` (`_introspection.py` lines 175-195): `typing.Union`,
`typing.Literal`, or one of the five marker classes of `_types.py`. -/
inductive Origin where
  | Union
  | Literal
  | Ref
  | Attr
  | RefList
  | RefDict
  | ContextRef
deriving DecidableEq

/-- Runtime model of a Python declared-type expression (a "type hint").
`generic o args` models any object exposing `__origin__ = o` and
`__args__ = args` — in particular the `_GenericAlias` instances produced by
the five marker shapes, `typing.Union` expressions and `typing.Literal`
expressions.  `NoneType` is `type(None)`, `Cls id` an ordinary class, and
`StrVal s` a plain string value appearing as a parameter. -/
inductive Hint where
  | NoneType
  | Cls (id : Nat)
  | StrVal (s : String)
  | generic (o : Origin) (args : List Hint)

mutual

/-- Decidable equality for `Hint` (hand-written because of the nested
`List Hint`); mirrors `_GenericAlias.__eq__`, which compares origin and
argument tuple structurally. -/
def decEqHint : (a b : Hint) → Decidable (a = b)
  | Hint.NoneType, Hint.NoneType => isTrue rfl
  | Hint.NoneType, Hint.Cls _ => isFalse (fun h => Hint.noConfusion h)
  | Hint.NoneType, Hint.StrVal _ => isFalse (fun h => Hint.noConfusion h)
  | Hint.NoneType, Hint.generic _ _ => isFalse (fun h => Hint.noConfusion h)
  | Hint.Cls _, Hint.NoneType => isFalse (fun h => Hint.noConfusion h)
  | Hint.Cls i, Hint.Cls j =>
    match Nat.decEq i j with
    | isTrue h => isTrue (h ▸ rfl)
    | isFalse h => isFalse (fun e => h (by injection e))
  | Hint.Cls _, Hint.StrVal _ => isFalse (fun h => Hint.noConfusion h)
  | Hint.Cls _, Hint.generic _ _ => isFalse (fun h => Hint.noConfusion h)
  | Hint.StrVal _, Hint.NoneType => isFalse (fun h => Hint.noConfusion h)
  | Hint.StrVal _, Hint.Cls _ => isFalse (fun h => Hint.noConfusion h)
  | Hint.StrVal s, Hint.StrVal t =>
    match String.decEq s t with
    | isTrue h => isTrue (h ▸ rfl)
    | isFalse h => isFalse (fun e => h (by injection e))
  | Hint.StrVal _, Hint.generic _ _ => isFalse (fun h => Hint.noConfusion h)
  | Hint.generic _ _, Hint.NoneType => isFalse (fun h => Hint.noConfusion h)
  | Hint.generic _ _, Hint.Cls _ => isFalse (fun h => Hint.noConfusion h)
  | Hint.generic _ _, Hint.StrVal _ => isFalse (fun h => Hint.noConfusion h)
  | Hint.generic o1 as1, Hint.generic o2 as2 =>
    match instDecidableEqOrigin o1 o2, decEqHintList as1 as2 with
    | isTrue h1, isTrue h2 => isTrue (by rw [h1, h2])
    | isFalse h1, _ => isFalse (fun e => h1 (by injection e))
    | _, isFalse h2 => isFalse (fun e => h2 (by injection e))

/-- Decidable equality for lists of hints (companion of `decEqHint`). -/
def decEqHintList : (as bs : List Hint) → Decidable (as = bs)
  | [], [] => isTrue rfl
  | [], _ :: _ => isFalse (fun h => List.noConfusion h)
  | _ :: _, [] => isFalse (fun h => List.noConfusion h)
  | a :: as, b :: bs =>
    match decEqHint a b, decEqHintList as bs with
    | isTrue h1, isTrue h2 => isTrue (by rw [h1, h2])
    | isFalse h1, _ => isFalse (fun e => h1 (by injection e))
    | _, isFalse h2 => isFalse (fun e => h2 (by injection e))

end

instance : DecidableEq Hint := decEqHint

/-- Metadata about one reference field (`RefInfo`, `_introspection.py`
lines 50-101).  `target` is a `Hint` because the source stores whatever
object appeared as the marker parameter; `attr` likewise.  Default values
match the dataclass defaults. -/
structure RefInfo where
  field : String
  target : Hint
  attr : Option Hint := none
  is_list : Bool := false
  is_dict : Bool := false
  is_optional : Bool := false
  is_context : Bool := false
deriving DecidableEq

/-- Model of `_get_origin` (`_introspection.py` lines 175-195): the standard
`typing.get_origin` handles `Union` and `Literal`, and the `__origin__`
fallback handles the custom `_GenericAlias`; a plain class, string or
`type(None)` has no origin. -/
def hintOrigin : Hint → Option Origin
  | Hint.generic o _ => some o
  | _ => none

/-- Model of `_get_args` (`_introspection.py` lines 198-219): the argument
tuple of a parameterized expression, `()` otherwise. -/
def hintArgs : Hint → List Hint
  | Hint.generic _ args => args
  | _ => []

/-- The `Literal`-unwrapping step used for the second `Attr` parameter and
the `ContextRef` parameter (`_introspection.py` lines 267-273 and 293-299):
if the parameter has an origin (e.g. `Literal["name"]`) and a nonempty
argument tuple, replace it by its first argument. -/
def unwrapLiteral (h : Hint) : Hint :=
  match hintOrigin h with
  | some _ =>
    match hintArgs h with
    | l0 :: _ => l0
    | [] => h
  | none => h

mutual

/-- Model of `_analyze_type` (`_introspection.py` lines 222-309), the
classification of a single declared-type expression, dispatching on its
origin.  The `Union` branch delegates to `analyzeOptional`, a structurally
recursive rendering of the source's

    non_none_args = [a for a in args if a is not type(None)]
    if len(non_none_args) == 1: inner = _analyze_type(field, non_none_args[0]) ...

(see `analyzeOptional_eq` for the proof that the two formulations agree).
All other branches are the source's origin checks verbatim: `Ref` needs a
nonempty argument tuple and targets `args[0]`; `Attr` needs at least two
arguments, targets `args[0]` and unwraps `args[1]`; `RefList` is as `Ref`
with `is_list`; `RefDict` needs at least two arguments and targets
`args[1]`; `ContextRef` needs a nonempty tuple, stores the unwrapped name
in `attr` and uses `type(None)` as target. -/
def analyzeType (fld : String) (hint : Hint) : Option RefInfo :=
  match hint with
  | Hint.generic Origin.Union args => analyzeOptional fld args
  | Hint.generic Origin.Ref args =>
    match args with
    | a0 :: _ => some { field := fld, target := a0 }
    | [] => none
  | Hint.generic Origin.Attr args =>
    match args with
    | a0 :: a1 :: _ => some { field := fld, target := a0, attr := some (unwrapLiteral a1) }
    | _ => none
  | Hint.generic Origin.RefList args =>
    match args with
    | a0 :: _ => some { field := fld, target := a0, is_list := true }
    | [] => none
  | Hint.generic Origin.RefDict args =>
    match args with
    | _ :: a1 :: _ => some { field := fld, target := a1, is_dict := true }
    | _ => none
  | Hint.generic Origin.ContextRef args =>
    match args with
    | a0 :: _ =>
      some { field := fld, target := Hint.NoneType, attr := some (unwrapLiteral a0),
             is_context := true }
    | [] => none
  | _ => none

/-- The optional-union recognition of `_analyze_type` (lines 240-256):
exactly one member of the union may differ from `type(None)`; if that
member classifies, its metadata is re-emitted with `is_optional := true`
and every other component unchanged.  Written as a left-to-right scan so
that the recursion into the inner expression is structural. -/
def analyzeOptional (fld : String) (args : List Hint) : Option RefInfo :=
  match args with
  | [] => none
  | a :: rest =>
    if a = Hint.NoneType then analyzeOptional fld rest
    else if rest.all (fun b => decide (b = Hint.NoneType)) then
      (analyzeType fld a).map (fun i => { i with is_optional := true })
    else none

end

/-- The non-`type(None)` members of a union's argument list — the source's
`non_none_args = [a for a in args if a is not type(None)]`. -/
def nonNoneArgs (args : List Hint) : List Hint :=
  args.filter (fun a => decide (a ≠ Hint.NoneType))

/-- Whether a hint's origin is one of the five marker shapes of
`_types.py`. -/
def isMarkerShape : Hint → Bool
  | Hint.generic Origin.Ref _ => true
  | Hint.generic Origin.Attr _ => true
  | Hint.generic Origin.RefList _ => true
  | Hint.generic Origin.RefDict _ => true
  | Hint.generic Origin.ContextRef _ => true
  | _ => false

/-- A finite universe of declared classes: class identifier together with
the field-name / declared-type pairs that `typing.get_type_hints` would
return for it (inheritance already resolved, as the source relies on
`get_type_hints` for that).  A class on which `get_type_hints` raises
(e.g. an unresolvable forward reference) is simply absent. -/
structure Env where
  classes : List (Nat × List (String × Hint))

/-- Look up the resolved hints of a class identifier. -/
def findHints : List (Nat × List (String × Hint)) → Nat → Option (List (String × Hint))
  | [], _ => none
  | ch :: tl, n => if ch.1 = n then some ch.2 else findHints tl n

/-- Model of the `get_type_hints(cls, include_extras=True)` call inside
`get_refs` (lines 160-165): `none` models the call raising (caught by the
source and turned into an empty result) — this is the case for any
non-class input and for a class whose forward references do not resolve;
`type(None)` is a class with no annotations, so it yields `{}`. -/
def hintsOf (env : Env) : Hint → Option (List (String × Hint))
  | Hint.NoneType => some []
  | Hint.Cls n => findHints env.classes n
  | _ => none

/-- Model of `get_refs` (`_introspection.py` lines 104-172): resolve the
type hints (an exception yields the empty map), classify each field with
`_analyze_type`, and keep the fields that classified.  The insertion-order
dictionary is modelled as a list of pairs. -/
def get_refs (env : Env) (c : Hint) : List (String × RefInfo) :=
  match hintsOf env c with
  | none => []
  | some hints => hints.filterMap (fun nh => (analyzeType nh.1 nh.2).map (fun i => (nh.1, i)))

/-- The direct dependency computation of `get_dependencies` (lines 389-393)
as a duplicate-free list: targets of the non-context entries, deduplicated
(the source builds a set), with the `type(None)` sentinel discarded. -/
def directDepsList (env : Env) (c : Hint) : List Hint :=
  ((((get_refs env c).filter (fun p => !p.2.is_context)).map
      (fun p => p.2.target)).dedup).filter (fun t => decide (t ≠ Hint.NoneType))

/-- The direct dependency set `deps` of `get_dependencies` (lines 389-393). -/
def directDeps (env : Env) (c : Hint) : Finset Hint :=
  (directDepsList env c).toFinset

/-- Union of the direct dependency sets of every declared class — a finite
pool that every work-list element drawn from `directDepsList` belongs to.
Used only to justify termination of the traversal. -/
def poolAux (env : Env) : List (Nat × List (String × Hint)) → Finset Hint
  | [] => ∅
  | ch :: tl => directDeps env (Hint.Cls ch.1) ∪ poolAux env tl

/-- The dependency pool of the whole environment (see `poolAux`). -/
def envDepsPool (env : Env) : Finset Hint := poolAux env env.classes

/-- The transitive-closure work-list loop of `get_dependencies`
(lines 398-416):

    while to_visit:
        current = to_visit.pop()
        if current in visited: continue
        visited.add(current)
        nested_deps = get_dependencies(current, transitive=False)
        to_visit.extend(nested_deps - visited)
    return visited

The work list is kept most-recently-pushed first (`list.pop()` takes the
last element, `extend` appends), so popping is taking the head and
extending is prepending the batch; the batch `nested_deps - visited` is the
direct-dependency list filtered by the updated visited set (a set in the
source, so its iteration order is immaterial).  The `try/except` around the
nested call is invisible here because the model's `get_refs` is total.  In
addition to the final visited set the model returns the sequence of
expanded types (the order of `visited.add` calls), which the source does
not materialize; the first component alone models the source.  Termination
is by the strictly decreasing measure (unvisited part of the finite
dependency pool, work-list length) — the visited set is the only guard, no
depth bound exists. -/
def transLoopAux (env : Env) (visited : Finset Hint) (toVisit : List Hint) :
    Finset Hint × List Hint :=
  match toVisit with
  | [] => (visited, [])
  | current :: rest =>
    if hcur : current ∈ visited then
      transLoopAux env visited rest
    else
      let r := transLoopAux env (insert current visited)
        (((directDepsList env current).filter
            (fun x => decide (x ∉ insert current visited))) ++ rest)
      (r.1, current :: r.2)
termination_by (((envDepsPool env ∪ toVisit.toFinset) \ visited).card, toVisit.length)
decreasing_by
  · simp_wf
    have hsub : ((envDepsPool env ∪ rest.toFinset) \ visited) ⊆
        ((insert a (envDepsPool env ∪ rest.toFinset)) \ visited) :=
      Finset.sdiff_subset_sdiff (Finset.subset_insert _ _) (le_refl _)
    rcases lt_or_eq_of_le (Finset.card_le_card hsub) with hlt | heq
    · exact Prod.Lex.left _ _ hlt
    · rw [heq]
      exact Prod.Lex.right _ (Nat.lt_succ_self _)
  · simp_wf
    have hpool : ∀ x c : Hint, x ∈ (directDepsList env c).toFinset → x ∈ envDepsPool env := by
      intro x c hx
      rw [List.mem_toFinset] at hx
      cases c with
      | NoneType => simp [directDepsList, get_refs, hintsOf] at hx
      | StrVal s => simp [directDepsList, get_refs, hintsOf] at hx
      | generic o args => simp [directDepsList, get_refs, hintsOf] at hx
      | Cls n =>
        cases hf : findHints env.classes n with
        | none => simp [directDepsList, get_refs, hintsOf, hf] at hx
        | some fl =>
          have hex : ∀ l : List (Nat × List (String × Hint)),
              findHints l n = some fl → ∃ ch, ch ∈ l ∧ ch.1 = n := by
            intro l
            induction l with
            | nil => intro h; simp [findHints] at h
            | cons ch tl ih =>
              intro h
              rw [findHints] at h
              by_cases hc : ch.1 = n
              · exact ⟨ch, List.mem_cons_self _ _, hc⟩
              · rcases ih (by simpa [hc] using h) with ⟨ch', h1, h2⟩
                exact ⟨ch', List.mem_cons_of_mem _ h1, h2⟩
          rcases hex env.classes hf with ⟨ch, hmem, hn⟩
          have hmempool : ∀ l : List (Nat × List (String × Hint)),
              ch ∈ l → x ∈ poolAux env l := by
            intro l
            induction l with
            | nil => intro h; cases h
            | cons ch' tl ih =>
              intro h
              rw [poolAux]
              rcases List.mem_cons.mp h with h1 | h2
              · refine Finset.mem_union_left _ ?_
                rw [← h1, hn]
                exact List.mem_toFinset.mpr hx
              · exact Finset.mem_union_right _ (ih h2)
          exact hmempool env.classes hmem
    apply Prod.Lex.left
    have ha_mem : a ∈ (insert a (envDepsPool env ∪ rest.toFinset)) \ visited :=
      Finset.mem_sdiff.mpr ⟨Finset.mem_insert_self _ _, hcur⟩
    have hsub : (envDepsPool env ∪
          (Finset.filter (fun x => ¬x = a ∧ x ∉ visited)
            (directDepsList env a).toFinset ∪ rest.toFinset)) \ insert a visited ⊆
        ((insert a (envDepsPool env ∪ rest.toFinset)) \ visited).erase a := by
      intro x hx
      rcases Finset.mem_sdiff.mp hx with ⟨hxin, hxnot⟩
      rw [Finset.mem_insert] at hxnot
      push_neg at hxnot
      refine Finset.mem_erase.mpr ⟨hxnot.1, Finset.mem_sdiff.mpr ⟨?_, hxnot.2⟩⟩
      rcases Finset.mem_union.mp hxin with hp | hq
      · exact Finset.mem_insert_of_mem (Finset.mem_union_left _ hp)
      · rcases Finset.mem_union.mp hq with hnew | hrest
        · have := Finset.mem_filter.mp hnew
          exact Finset.mem_insert_of_mem (Finset.mem_union_left _ (hpool x a this.1))
        · exact Finset.mem_insert_of_mem (Finset.mem_union_right _ hrest)
    exact lt_of_le_of_lt (Finset.card_le_card hsub) (Finset.card_erase_lt_of_mem ha_mem)

/-- Model of `get_dependencies` (`_introspection.py` lines 312-416): direct
mode returns the direct dependency set; transitive mode returns the visited
set of the work-list traversal started from `list(deps)`. -/
def get_dependencies (env : Env) (c : Hint) (transitive : Bool := false) : Finset Hint :=
  let deps := directDeps env c
  if !transitive then deps
  else (transLoopAux env ∅ (directDepsList env c)).1

/-- The sequence of types expanded (added to `visited`) by the transitive
traversal of `get_dependencies`, in order. -/
def expansionOrder (env : Env) (c : Hint) : List Hint :=
  (transLoopAux env ∅ (directDepsList env c)).2

/-- The argument Python passes to a `__getitem__` call: `C[x]` passes `x`
itself, `C[x, y, ...]` passes the tuple `(x, y, ...)`. -/
inductive SubscriptArg where
  | single (h : Hint)
  | tup (hs : List Hint)

/-- Model of `_AttrMeta.__getitem__` (`_types.py` lines 128-142): anything
other than a tuple of exactly two elements raises `TypeError`; otherwise a
`_GenericAlias(Attr, args)` is produced. -/
def attrGetItem : SubscriptArg → Except String Hint
  | SubscriptArg.single _ =>
    Except.error "Attr requires exactly two arguments"
  | SubscriptArg.tup hs =>
    if hs.length = 2 then Except.ok (Hint.generic Origin.Attr hs)
    else Except.error "Attr requires exactly two arguments"

/-- Model of `_RefDictMeta.__getitem__` (`_types.py` lines 260-274):
anything other than a tuple of exactly two elements raises `TypeError`;
otherwise a `_GenericAlias(RefDict, args)` is produced. -/
def refDictGetItem : SubscriptArg → Except String Hint
  | SubscriptArg.single _ =>
    Except.error "RefDict requires exactly two arguments"
  | SubscriptArg.tup hs =>
    if hs.length = 2 then Except.ok (Hint.generic Origin.RefDict hs)
    else Except.error "RefDict requires exactly two arguments"

/-- Whether a subscript argument is a tuple of exactly two parameters. -/
def isPairArg : SubscriptArg → Bool
  | SubscriptArg.tup hs => hs.length = 2
  | SubscriptArg.single _ => false

/-- One edge of the type-level dependency graph: `v` is a direct dependency
of `u` (as computed by `get_dependencies(u, transitive=False)`). -/
def DepStep (env : Env) (u v : Hint) : Prop := v ∈ directDeps env u

/-- Example environment: class `0` has two `Ref` fields targeting classes
`1` and `2` and one `ContextRef` field. -/
def envDirect : Env :=
  ⟨[(0, [("x", Hint.generic Origin.Ref [Hint.Cls 1]),
         ("y", Hint.generic Origin.Ref [Hint.Cls 2]),
         ("region", Hint.generic Origin.ContextRef [Hint.StrVal "region"])])]⟩

/-- Diamond-shaped example environment: class `0` references classes `1`
and `2`, both of which reference class `3`; class `3` has only a plain
field. -/
def envDiamond : Env :=
  ⟨[(0, [("b", Hint.generic Origin.Ref [Hint.Cls 1]),
         ("c", Hint.generic Origin.Ref [Hint.Cls 2])]),
    (1, [("d", Hint.generic Origin.Ref [Hint.Cls 3])]),
    (2, [("d", Hint.generic Origin.Ref [Hint.Cls 3])]),
    (3, [("name", Hint.Cls 100)])]⟩

/-- Example environment: class `0` declares a union hint with three members
in total, exactly one of them different from `type(None)`. -/
def envTripleNone : Env :=
  ⟨[(0, [("network", Hint.generic Origin.Union
      [Hint.generic Origin.Ref [Hint.Cls 1], Hint.NoneType, Hint.NoneType])])]⟩

/-- Example environment: class `0` declares a `Ref`-origin hint carrying
two parameters instead of one. -/
def envTwoParamRef : Env :=
  ⟨[(0, [("r", Hint.generic Origin.Ref [Hint.Cls 1, Hint.Cls 2])])]⟩

/-- Example environment: class `0` declares a reference to `type(None)`
itself (`Ref[type(None)]`) and a reference whose parameter is a plain
string (`Ref["foo"]`) — both written through the library's normal
subscript syntax and returned unchanged by `get_type_hints`. -/
def envRefNone : Env :=
  ⟨[(0, [("r", Hint.generic Origin.Ref [Hint.NoneType]),
         ("s", Hint.generic Origin.Ref [Hint.StrVal "foo"])])]⟩

/-- The metadata record produced for the `ContextRef` field of
`envDirect`. -/
def ctxInfoExample : RefInfo :=
  { field := "region", target := Hint.NoneType, attr := some (Hint.StrVal "region"),
    is_context := true }

/-! ### Properties of the classification algorithm -/

/-- The structurally recursive `analyzeOptional` computes exactly the
source's formulation: filter out the `type(None)` members; if exactly one
member remains, classify it and force `is_optional := true`, otherwise the
union is not recognized. -/
theorem analyzeOptional_eq (fld : String) (args : List Hint) :
    analyzeOptional fld args =
      match nonNoneArgs args with
      | [inner] => (analyzeType fld inner).map (fun i => { i with is_optional := true })
      | _ => none := by
  induction args with
  | nil => rfl
  | cons a rest ih =>
    by_cases ha : a = Hint.NoneType
    · subst ha
      have hskip : nonNoneArgs (Hint.NoneType :: rest) = nonNoneArgs rest := by
        simp [nonNoneArgs]
      simp only [analyzeOptional, ih, hskip]
      rw [if_pos trivial]
    · have hcons : nonNoneArgs (a :: rest) = a :: nonNoneArgs rest := by
        simp [nonNoneArgs, ha]
      by_cases hall : rest.all (fun b => decide (b = Hint.NoneType)) = true
      · have hnil : nonNoneArgs rest = [] := by
          rw [nonNoneArgs, List.filter_eq_nil_iff]
          intro b hb
          have hbn := List.all_eq_true.mp hall b hb
          simp at hbn ⊢
          exact hbn
        simp only [analyzeOptional]
        rw [if_neg ha, if_pos hall, hcons, hnil]
      · have hex : ∃ b ∈ rest, b ≠ Hint.NoneType := by
          simpa [List.all_eq_true] using hall
        rcases hex with ⟨b, hb, hbne⟩
        have hbmem : b ∈ nonNoneArgs rest := by simp [nonNoneArgs, hb, hbne]
        cases hnn : nonNoneArgs rest with
        | nil => rw [hnn] at hbmem; cases hbmem
        | cons c tl =>
          simp only [analyzeOptional]
          rw [if_neg ha, if_neg hall, hcons, hnn]

/-- Unfolding of the `Union` dispatch of `_analyze_type` into the source
shape (combination of the `Union` branch with `analyzeOptional_eq`). -/
theorem analyzeType_union_eq (fld : String) (args : List Hint) :
    analyzeType fld (Hint.generic Origin.Union args) =
      match nonNoneArgs args with
      | [inner] => (analyzeType fld inner).map (fun i => { i with is_optional := true })
      | _ => none := by
  rw [show analyzeType fld (Hint.generic Origin.Union args) = analyzeOptional fld args from rfl,
    analyzeOptional_eq]

/-- Membership in the direct dependency set: exactly the non-`type(None)`
targets of the non-context entries of `get_refs`. -/
theorem mem_directDeps (env : Env) (c : Hint) (x : Hint) :
    x ∈ directDeps env c ↔
      x ≠ Hint.NoneType ∧ ∃ p ∈ get_refs env c, p.2.is_context = false ∧ p.2.target = x := by
  simp only [directDeps, directDepsList, List.mem_toFinset, List.mem_filter, List.mem_dedup,
    List.mem_map, decide_eq_true_eq]
  constructor
  · rintro ⟨⟨p, ⟨hpmem, hpc⟩, hpx⟩, hne⟩
    exact ⟨hne, p, hpmem, by simpa using hpc, hpx⟩
  · rintro ⟨hne, p, hpmem, hpc, hpx⟩
    exact ⟨⟨p, ⟨hpmem, by simpa using hpc⟩, hpx⟩, hne⟩

/-- Every `RefInfo` produced by `_analyze_type` satisfies the data-model
invariants: a context entry carries the `type(None)` sentinel as target,
and the list and dict flags are never both set. -/
theorem analyzeType_some_inv (fld : String) (h : Hint) (i : RefInfo)
    (e : analyzeType fld h = some i) :
    (i.is_context = true → i.target = Hint.NoneType) ∧
      ¬(i.is_list = true ∧ i.is_dict = true) := by
  suffices key : ∀ (n : Nat) (h : Hint), sizeOf h ≤ n → ∀ i : RefInfo,
      analyzeType fld h = some i →
      (i.is_context = true → i.target = Hint.NoneType) ∧
        ¬(i.is_list = true ∧ i.is_dict = true) from
    key (sizeOf h) h le_rfl i e
  intro n
  induction n with
  | zero =>
    intro h hle
    exfalso
    cases h <;> simp at hle
  | succ n ih =>
    intro h hle i e
    cases h with
    | NoneType => exact absurd e (by simp [analyzeType])
    | Cls m => exact absurd e (by simp [analyzeType])
    | StrVal s => exact absurd e (by simp [analyzeType])
    | generic o args =>
      cases o with
      | Literal => exact absurd e (by simp [analyzeType])
      | Union =>
        rw [analyzeType_union_eq] at e
        cases hnn : nonNoneArgs args with
        | nil => rw [hnn] at e; simp at e
        | cons inner tl =>
          cases tl with
          | cons b tl2 => rw [hnn] at e; simp at e
          | nil =>
            rw [hnn] at e
            rw [Option.map_eq_some'] at e
            rcases e with ⟨i0, he0, hopt⟩
            have hmem : inner ∈ args := by
              have hm : inner ∈ nonNoneArgs args := by
                rw [hnn]; exact List.mem_cons_self inner []
              exact List.mem_of_mem_filter hm
            have hszlt : sizeOf inner ≤ n := by
              have h1 := List.sizeOf_lt_of_mem hmem
              simp only [Hint.generic.sizeOf_spec] at hle
              omega
            rcases ih inner hszlt i0 he0 with ⟨hc, hld⟩
            subst hopt
            refine ⟨fun hic => ?_, fun hld2 => ?_⟩
            · simpa using hc (by simpa using hic)
            · exact hld ⟨by simpa using hld2.1, by simpa using hld2.2⟩
      | Ref =>
        cases args with
        | nil => exact absurd e (by simp [analyzeType])
        | cons a0 tl =>
          have hi : i = { field := fld, target := a0 } := Option.some.inj e.symm
          subst hi; simp
      | Attr =>
        cases args with
        | nil => exact absurd e (by simp [analyzeType])
        | cons a0 tl =>
          cases tl with
          | nil => exact absurd e (by simp [analyzeType])
          | cons a1 tl2 =>
            have hi : i = { field := fld, target := a0, attr := some (unwrapLiteral a1) } :=
              Option.some.inj e.symm
            subst hi; simp
      | RefList =>
        cases args with
        | nil => exact absurd e (by simp [analyzeType])
        | cons a0 tl =>
          have hi : i = { field := fld, target := a0, is_list := true } := Option.some.inj e.symm
          subst hi; simp
      | RefDict =>
        cases args with
        | nil => exact absurd e (by simp [analyzeType])
        | cons a0 tl =>
          cases tl with
          | nil => exact absurd e (by simp [analyzeType])
          | cons a1 tl2 =>
            have hi : i = { field := fld, target := a1, is_dict := true } := Option.some.inj e.symm
            subst hi; simp
      | ContextRef =>
        cases args with
        | nil => exact absurd e (by simp [analyzeType])
        | cons a0 tl =>
          have hi : i =
              { field := fld, target := Hint.NoneType, attr := some (unwrapLiteral a0),
                is_context := true } :=
            Option.some.inj e.symm
          subst hi; simp

/-- Work-list invariants of the traversal: the returned visited set is the
starting visited set plus the expanded types; no type is expanded twice; no
already-visited type is expanded; and every work-list element ends up in
the returned set. -/
theorem transLoopAux_spec (env : Env) (visited : Finset Hint) (toVisit : List Hint) :
    (transLoopAux env visited toVisit).1 = visited ∪ (transLoopAux env visited toVisit).2.toFinset ∧
    (transLoopAux env visited toVisit).2.Nodup ∧
    (∀ x ∈ (transLoopAux env visited toVisit).2, x ∉ visited) ∧
    (∀ x ∈ toVisit, x ∈ (transLoopAux env visited toVisit).1) := by
  induction visited, toVisit using transLoopAux.induct env with
  | case1 visited =>
    rw [transLoopAux]
    simp
  | case2 visited current rest hcur ih =>
    rw [transLoopAux, dif_pos hcur]
    rcases ih with ⟨h1, h2, h3, h4⟩
    refine ⟨h1, h2, h3, ?_⟩
    intro x hx
    rcases List.mem_cons.mp hx with hx1 | hx2
    · subst hx1
      rw [h1]
      exact Finset.mem_union_left _ hcur
    · exact h4 x hx2
  | case3 visited current rest hcur ih =>
    rw [transLoopAux, dif_neg hcur]
    rcases ih with ⟨h1, h2, h3, h4⟩
    refine ⟨?_, ?_, ?_, ?_⟩
    · rw [h1]
      ext y
      simp [Finset.mem_union, Finset.mem_insert, List.mem_toFinset]
    · refine List.nodup_cons.mpr ⟨?_, h2⟩
      intro hmem
      exact h3 current hmem (Finset.mem_insert_self _ _)
    · intro x hx
      rcases List.mem_cons.mp hx with hx1 | hx2
      · subst hx1; exact hcur
      · intro hxv
        exact h3 x hx2 (Finset.mem_insert_of_mem hxv)
    · intro x hx
      rcases List.mem_cons.mp hx with hx1 | hx2
      · subst hx1
        rw [h1]
        exact Finset.mem_union_left _ (Finset.mem_insert_self _ _)
      · exact h4 x (List.mem_append_right _ hx2)

/-- Soundness of the traversal: everything in the returned set was already
visited or is reachable from some work-list element along dependency
edges. -/
theorem transLoopAux_sound (env : Env) (visited : Finset Hint) (toVisit : List Hint) :
    ∀ x ∈ (transLoopAux env visited toVisit).1,
      x ∈ visited ∨ ∃ s ∈ toVisit, Relation.ReflTransGen (DepStep env) s x := by
  induction visited, toVisit using transLoopAux.induct env with
  | case1 visited =>
    rw [transLoopAux]
    intro x hx
    exact Or.inl hx
  | case2 visited current rest hcur ih =>
    rw [transLoopAux, dif_pos hcur]
    intro x hx
    rcases ih x hx with hv | ⟨s, hs, hr⟩
    · exact Or.inl hv
    · exact Or.inr ⟨s, List.mem_cons_of_mem _ hs, hr⟩
  | case3 visited current rest hcur ih =>
    rw [transLoopAux, dif_neg hcur]
    intro x hx
    rcases ih x hx with hv | ⟨s, hs, hr⟩
    · rcases Finset.mem_insert.mp hv with hx1 | hx2
      · exact Or.inr ⟨current, List.mem_cons_self _ _, hx1 ▸ Relation.ReflTransGen.refl⟩
      · exact Or.inl hx2
    · rcases List.mem_append.mp hs with hnew | hrest
      · rcases List.mem_filter.mp hnew with ⟨hsd, _⟩
        have hstep : DepStep env current s := List.mem_toFinset.mpr hsd
        exact Or.inr ⟨current, List.mem_cons_self _ _, Relation.ReflTransGen.head hstep hr⟩
      · exact Or.inr ⟨s, List.mem_cons_of_mem _ hrest, hr⟩

/-- Closure of the traversal: if every visited type already has its direct
dependencies scheduled (visited or on the work list), then the returned set
is closed under direct dependencies. -/
theorem transLoopAux_closed (env : Env) (visited : Finset Hint) (toVisit : List Hint)
    (inv : ∀ v ∈ visited, directDeps env v ⊆ visited ∪ toVisit.toFinset) :
    ∀ x ∈ (transLoopAux env visited toVisit).1,
      directDeps env x ⊆ (transLoopAux env visited toVisit).1 := by
  induction visited, toVisit using transLoopAux.induct env with
  | case1 visited =>
    rw [transLoopAux]
    intro x hx
    have := inv x hx
    simpa using this
  | case2 visited current rest hcur ih =>
    rw [transLoopAux, dif_pos hcur]
    refine ih ?_
    intro v hv y hy
    have := inv v hv hy
    rcases Finset.mem_union.mp this with h1 | h2
    · exact Finset.mem_union_left _ h1
    · rw [List.toFinset_cons, Finset.mem_insert] at h2
      rcases h2 with h3 | h4
      · exact Finset.mem_union_left _ (h3 ▸ hcur)
      · exact Finset.mem_union_right _ h4
  | case3 visited current rest hcur ih =>
    rw [transLoopAux, dif_neg hcur]
    refine ih ?_
    intro v hv y hy
    rcases Finset.mem_insert.mp hv with hv1 | hv2
    · by_cases hyv : y ∈ insert current visited
      · exact Finset.mem_union_left _ hyv
      · refine Finset.mem_union_right _ ?_
        rw [List.toFinset_append, Finset.mem_union]
        left
        rw [List.mem_toFinset, List.mem_filter]
        refine ⟨?_, by simpa using hyv⟩
        rw [← List.mem_toFinset]
        exact hv1 ▸ hy
    · have := inv v hv2 hy
      rcases Finset.mem_union.mp this with h1 | h2
      · exact Finset.mem_union_left _ (Finset.mem_insert_of_mem h1)
      · rw [List.toFinset_cons, Finset.mem_insert] at h2
        rcases h2 with h3 | h4
        · exact Finset.mem_union_left _ (h3 ▸ Finset.mem_insert_self _ _)
        · refine Finset.mem_union_right _ ?_
          rw [List.toFinset_append, Finset.mem_union]
          exact Or.inr h4

/-- Characterization of the transitive mode: a type is returned exactly
when it is reachable from some direct dependency of the start type along
dependency edges. -/
theorem mem_get_dependencies_transitive (env : Env) (c x : Hint) :
    x ∈ get_dependencies env c true ↔
      ∃ s ∈ directDeps env c, Relation.ReflTransGen (DepStep env) s x := by
  have hunfold : get_dependencies env c true = (transLoopAux env ∅ (directDepsList env c)).1 := by
    simp [get_dependencies]
  constructor
  · intro hx
    rw [hunfold] at hx
    rcases transLoopAux_sound env ∅ (directDepsList env c) x hx with hv | ⟨s, hs, hr⟩
    · simp at hv
    · exact ⟨s, List.mem_toFinset.mpr hs, hr⟩
  · rintro ⟨s, hs, hr⟩
    rw [hunfold]
    have hclosed := transLoopAux_closed env ∅ (directDepsList env c) (by simp)
    have hstart : s ∈ (transLoopAux env ∅ (directDepsList env c)).1 :=
      (transLoopAux_spec env ∅ (directDepsList env c)).2.2.2 s (List.mem_toFinset.mp hs)
    induction hr with
    | refl => exact hstart
    | tail h1 h2 ihr => exact hclosed _ ihr h2

/-! ### Claim theorems -/

/-- C1: for every finite environment of declared record types, whose
reference graph may contain cycles (including a type referencing itself),
the transitive traversal of `get_dependencies` terminates — `transLoopAux`
is a total function whose only termination guard is the visited set, with
no depth bound — and expands each type at most once: the expansion
sequence contains no duplicates, and the returned set is exactly the set
of expanded types. -/
theorem transitive_expands_each_type_at_most_once (env : Env) (c : Hint) :
    (expansionOrder env c).Nodup ∧
      get_dependencies env c true = (expansionOrder env c).toFinset := by
  have hspec := transLoopAux_spec env ∅ (directDepsList env c)
  refine ⟨hspec.2.1, ?_⟩
  have hunfold : get_dependencies env c true = (transLoopAux env ∅ (directDepsList env c)).1 := by
    simp [get_dependencies]
  rw [hunfold, expansionOrder, hspec.1]
  simp

/-- C2: if the reference-carrying (non-context) entries extracted from a
type target exactly the types `X` and `Y`, then direct mode returns
exactly the set `{X, Y}`; context entries, whatever their number and
targets, never contribute. -/
theorem direct_mode_returns_exactly_targets (env : Env) (c : Hint) (X Y : Hint)
    (hX : X ≠ Hint.NoneType) (hY : Y ≠ Hint.NoneType)
    (hcov : ∀ p ∈ get_refs env c, p.2.is_context = false → p.2.target = X ∨ p.2.target = Y)
    (hXw : ∃ p ∈ get_refs env c, p.2.is_context = false ∧ p.2.target = X)
    (hYw : ∃ p ∈ get_refs env c, p.2.is_context = false ∧ p.2.target = Y) :
    get_dependencies env c false = {X, Y} := by
  have hdir : get_dependencies env c false = directDeps env c := by simp [get_dependencies]
  rw [hdir]
  ext x
  rw [mem_directDeps]
  simp only [Finset.mem_insert, Finset.mem_singleton]
  constructor
  · rintro ⟨hne, p, hp, hpc, hpt⟩
    rcases hcov p hp hpc with h1 | h1
    · exact Or.inl (hpt ▸ h1)
    · exact Or.inr (hpt ▸ h1)
  · rintro (rfl | rfl)
    · rcases hXw with ⟨p, hp, hpc, hpt⟩
      exact ⟨hX, p, hp, hpc, hpt⟩
    · rcases hYw with ⟨p, hp, hpc, hpt⟩
      exact ⟨hY, p, hp, hpc, hpt⟩

/-- Witness for C2 at a concrete environment: class `0` of `envDirect` has
`Ref` fields to classes `1` and `2` plus a `ContextRef` field, and direct
mode returns exactly `{1, 2}`. -/
theorem direct_mode_returns_exactly_targets_witness :
    get_dependencies envDirect (Hint.Cls 0) false = {Hint.Cls 1, Hint.Cls 2} :=
  direct_mode_returns_exactly_targets envDirect (Hint.Cls 0) (Hint.Cls 1) (Hint.Cls 2)
    (by decide) (by decide) (by decide) (by decide) (by decide)

/-- C3: in a diamond-shaped graph — `a` references `b` and `c`, both `b`
and `c` reference `d`, `d` references nothing — the transitive mode
returns exactly `{b, c, d}`, with `d` present once although it is
reachable along two distinct paths. -/
theorem transitive_diamond (env : Env) (a b c d : Hint)
    (hab : directDeps env a = {b, c}) (hb : directDeps env b = {d})
    (hc : directDeps env c = {d}) (hd : directDeps env d = ∅) :
    get_dependencies env a true = {b, c, d} := by
  have reach_single : ∀ u, directDeps env u = {d} →
      ∀ y, Relation.ReflTransGen (DepStep env) u y → y = u ∨ y = d := by
    intro u hu y hy
    induction hy with
    | refl => exact Or.inl rfl
    | @tail mid last h1 h2 ihy =>
      rcases ihy with hm | hm
      · rw [hm] at h2
        have h3 : last ∈ directDeps env u := h2
        rw [hu] at h3
        simp at h3
        exact Or.inr h3
      · rw [hm] at h2
        have h3 : last ∈ directDeps env d := h2
        rw [hd] at h3
        simp at h3
  ext x
  rw [mem_get_dependencies_transitive, hab]
  constructor
  · rintro ⟨s, hs, hr⟩
    rw [Finset.mem_insert, Finset.mem_singleton] at hs
    rcases hs with rfl | rfl
    · rcases reach_single s hb x hr with rfl | rfl
      · exact Finset.mem_insert_self _ _
      · simp
    · rcases reach_single s hc x hr with rfl | rfl
      · simp
      · simp
  · intro hx
    rw [Finset.mem_insert, Finset.mem_insert, Finset.mem_singleton] at hx
    rcases hx with rfl | rfl | rfl
    · exact ⟨x, Finset.mem_insert_self _ _, Relation.ReflTransGen.refl⟩
    · refine ⟨x, ?_, Relation.ReflTransGen.refl⟩
      simp
    · refine ⟨b, Finset.mem_insert_self _ _, Relation.ReflTransGen.single ?_⟩
      show x ∈ directDeps env b
      rw [hb]
      simp

/-- Witness for C3 at the concrete diamond environment. -/
theorem transitive_diamond_witness :
    get_dependencies envDiamond (Hint.Cls 0) true = {Hint.Cls 1, Hint.Cls 2, Hint.Cls 3} :=
  transitive_diamond envDiamond (Hint.Cls 0) (Hint.Cls 1) (Hint.Cls 2) (Hint.Cls 3)
    (by decide) (by decide) (by decide) (by decide)

/-- C4: wrapping a marker in the optional convention — a union whose only
non-absent member is the marker — classifies with `is_optional := true`
and every other component (field name, target, attribute, list, dict and
context flags) unchanged from the unwrapped classification. -/
theorem optional_union_wrap_preserves_inner (fld : String) (m : Hint) (info : RefInfo)
    (args : List Hint) (_hm : isMarkerShape m = true) (hargs : nonNoneArgs args = [m])
    (h : analyzeType fld m = some info) :
    analyzeType fld (Hint.generic Origin.Union args) =
      some { info with is_optional := true } := by
  rw [analyzeType_union_eq, hargs]
  simp [h]

/-- Witness for C4: `Ref` to class `0` wrapped as `Ref[...] | None`. -/
theorem optional_union_wrap_preserves_inner_witness :
    analyzeType "gateway"
        (Hint.generic Origin.Union [Hint.generic Origin.Ref [Hint.Cls 0], Hint.NoneType]) =
      some
        { field := "gateway", target := Hint.Cls 0, attr := none, is_list := false,
          is_dict := false, is_optional := true, is_context := false } :=
  optional_union_wrap_preserves_inner "gateway" (Hint.generic Origin.Ref [Hint.Cls 0])
    { field := "gateway", target := Hint.Cls 0 }
    [Hint.generic Origin.Ref [Hint.Cls 0], Hint.NoneType]
    (by decide) (by decide) (by decide)

/-- Counterexample to C5 as stated: a union with three members in total
(`Ref[A]`, `type(None)`, `type(None)`), which the claim says must yield no
entry, is classified — the source checks only the count of non-absent
members, not the total member count. -/
theorem union_total_count_counterexample :
    get_refs envTripleNone (Hint.Cls 0) =
      [("network",
        { field := "network", target := Hint.Cls 1, attr := none, is_list := false,
          is_dict := false, is_optional := true, is_context := false })] := by decide

/-- C5 (amended): a union with more than one non-absent member is never
classified as a reference (so `Ref[A] | str`, `Ref[A] | Ref[B]` and
`Ref[A] | None | int` all yield no entry); the total member count is not
separately checked. -/
theorem union_multiple_non_absent_rejected (fld : String) (args : List Hint)
    (hmany : 1 < (nonNoneArgs args).length) :
    analyzeType fld (Hint.generic Origin.Union args) = none := by
  rw [analyzeType_union_eq]
  generalize nonNoneArgs args = l at hmany ⊢
  rcases l with _ | ⟨a, _ | ⟨b, tl⟩⟩
  · simp at hmany
  · simp at hmany
  · rfl

/-- Witness for the amended C5: `Ref[A] | str` (modelled with class `1` in
the role of `str`) yields no entry. -/
theorem union_multiple_non_absent_rejected_witness :
    analyzeType "network"
        (Hint.generic Origin.Union [Hint.generic Origin.Ref [Hint.Cls 0], Hint.Cls 1]) = none :=
  union_multiple_non_absent_rejected "network"
    [Hint.generic Origin.Ref [Hint.Cls 0], Hint.Cls 1] (by decide)

/-- Counterexample to C6 as stated: a `Ref`-origin expression carrying two
parameters (arity different from the required one) is nevertheless
classified, targeting the first parameter — the source checks `if args:`
(at least one), not an exact count. -/
theorem excess_parameters_counterexample :
    get_refs envTwoParamRef (Hint.Cls 0) =
      [("r",
        { field := "r", target := Hint.Cls 1, attr := none, is_list := false,
          is_dict := false, is_optional := false, is_context := false })] := by decide

/-- C6 (amended): each marker origin has a required minimum parameter
count — at least one for `Ref`, `RefList` and `ContextRef`, at least two
for `Attr` and `RefDict` — and an expression with fewer parameters is not
classified (excess parameters beyond the minimum are accepted and
ignored). -/
theorem marker_arity_minimums (fld : String) (args : List Hint) :
    analyzeType fld (Hint.generic Origin.Ref []) = none ∧
    analyzeType fld (Hint.generic Origin.RefList []) = none ∧
    analyzeType fld (Hint.generic Origin.ContextRef []) = none ∧
    (args.length < 2 → analyzeType fld (Hint.generic Origin.Attr args) = none) ∧
    (args.length < 2 → analyzeType fld (Hint.generic Origin.RefDict args) = none) := by
  refine ⟨rfl, rfl, rfl, ?_, ?_⟩
  · intro hlen
    cases args with
    | nil => rfl
    | cons a0 tl =>
      cases tl with
      | nil => rfl
      | cons a1 tl2 =>
        simp only [List.length_cons] at hlen
        omega
  · intro hlen
    cases args with
    | nil => rfl
    | cons a0 tl =>
      cases tl with
      | nil => rfl
      | cons a1 tl2 =>
        simp only [List.length_cons] at hlen
        omega

/-- Witness for the amended C6: a bare `Ref` with no parameters and an
`Attr` with a single parameter are both rejected. -/
theorem marker_arity_minimums_witness :
    analyzeType "r" (Hint.generic Origin.Ref []) = none ∧
    analyzeType "r" (Hint.generic Origin.Attr [Hint.Cls 0]) = none :=
  ⟨(marker_arity_minimums "r" [Hint.Cls 0]).1,
   (marker_arity_minimums "r" [Hint.Cls 0]).2.2.2.1 (by decide)⟩

/-- C7: applying `Attr` or `RefDict` to any subscript argument other than
a tuple of exactly two parameters fails at construction time with a
`TypeError`, never truncating or accepting the arguments. -/
theorem attr_refdict_arity_error (arg : SubscriptArg) (h : isPairArg arg = false) :
    attrGetItem arg = Except.error "Attr requires exactly two arguments" ∧
    refDictGetItem arg = Except.error "RefDict requires exactly two arguments" := by
  cases arg with
  | single h0 => exact ⟨rfl, rfl⟩
  | tup hs =>
    have hne : hs.length ≠ 2 := by simpa [isPairArg] using h
    exact ⟨by simp [attrGetItem, hne], by simp [refDictGetItem, hne]⟩

/-- Witness for C7: a three-element tuple is rejected by both subscript
operations. -/
theorem attr_refdict_arity_error_witness :
    attrGetItem (SubscriptArg.tup [Hint.Cls 0, Hint.StrVal "Arn", Hint.Cls 1]) =
      Except.error "Attr requires exactly two arguments" ∧
    refDictGetItem (SubscriptArg.tup [Hint.Cls 0, Hint.StrVal "Arn", Hint.Cls 1]) =
      Except.error "RefDict requires exactly two arguments" :=
  attr_refdict_arity_error (SubscriptArg.tup [Hint.Cls 0, Hint.StrVal "Arn", Hint.Cls 1])
    (by decide)

/-- C8: whenever field-type resolution fails — the `get_type_hints` call
raises (non-type input, unresolvable forward references), or the type has
no field declarations — `get_refs` returns the empty classification map;
being a total function, it never raises. -/
theorem get_refs_empty_on_failed_resolution (env : Env) (c : Hint)
    (h : hintsOf env c = none ∨ hintsOf env c = some []) :
    get_refs env c = [] := by
  rcases h with h | h <;> simp [get_refs, h]

/-- Witness for C8: a string is not a type, so extraction on it yields the
empty map. -/
theorem get_refs_empty_on_failed_resolution_witness :
    get_refs (Env.mk []) (Hint.StrVal "not a class") = [] :=
  get_refs_empty_on_failed_resolution (Env.mk []) (Hint.StrVal "not a class") (Or.inl rfl)

/-- Counterexample to C9 as stated: the target of a **non-context**
record need not be a concrete type object — the engine stores the marker
parameter exactly as written, unvalidated.  `Ref[type(None)]` yields a
non-context record whose target is the absence-type sentinel itself, and
`Ref["foo"]` one whose target is a plain string. -/
theorem non_context_sentinel_target_counterexample :
    get_refs envRefNone (Hint.Cls 0) =
      [("r",
        { field := "r", target := Hint.NoneType, attr := none, is_list := false,
          is_dict := false, is_optional := false, is_context := false }),
       ("s",
        { field := "s", target := Hint.StrVal "foo", attr := none, is_list := false,
          is_dict := false, is_optional := false, is_context := false })] := by decide

/-- C9 (amended): every metadata record produced by `get_refs` satisfies:
`target` is never null — it is a total field of the record, and for
context references (`is_context` true) it is the canonical absence-type
sentinel `type(None)` — and the list flag and map flag are never both
true in the same record.  For non-context records the target is the
declared parameter exactly as written, which the engine does not validate
to be a concrete type object (see the counterexample above). -/
theorem get_refs_metadata_invariants (env : Env) (c : Hint) (name : String) (info : RefInfo)
    (h : (name, info) ∈ get_refs env c) :
    (info.is_context = true → info.target = Hint.NoneType) ∧
      ¬(info.is_list = true ∧ info.is_dict = true) := by
  cases henv : hintsOf env c with
  | none => simp [get_refs, henv] at h
  | some hints =>
    simp only [get_refs, henv, List.mem_filterMap] at h
    rcases h with ⟨nh, hmem, han⟩
    rw [Option.map_eq_some'] at han
    rcases han with ⟨i0, he, hpair⟩
    have h2 : i0 = info := (Prod.ext_iff.mp hpair).2
    subst h2
    exact analyzeType_some_inv nh.1 nh.2 _ he

/-- Witness for C9 at the `ContextRef` entry of `envDirect`. -/
theorem get_refs_metadata_invariants_witness :
    (ctxInfoExample.is_context = true → ctxInfoExample.target = Hint.NoneType) ∧
      ¬(ctxInfoExample.is_list = true ∧ ctxInfoExample.is_dict = true) :=
  get_refs_metadata_invariants envDirect (Hint.Cls 0) "region" ctxInfoExample (by decide)

/-- C10: the direct dependency set is always contained in the transitive
dependency set. -/
theorem direct_subset_transitive (env : Env) (c : Hint) :
    get_dependencies env c false ⊆ get_dependencies env c true := by
  intro x hx
  have hdir : get_dependencies env c false = directDeps env c := by simp [get_dependencies]
  have htr : get_dependencies env c true = (transLoopAux env ∅ (directDepsList env c)).1 := by
    simp [get_dependencies]
  rw [hdir] at hx
  rw [htr]
  exact (transLoopAux_spec env ∅ (directDepsList env c)).2.2.2 x (List.mem_toFinset.mp hx)

end GraphRefs
